import Mathlib

/-!
# Verification of the caps-be retrieval and sync layer

Shallow embedding of the code relevant to the frozen claims:

* `src/main.py` — `multi_context_query` and `query_crime_data`: the weighted
  multi-context retrieval over per-view chroma collections.
* `src/apps/incidents/services.py` — `IncidentService.create_incident`,
  `update_incident`, `delete_incident`: primary-store mutation plus
  best-effort vector-store sync.
* `src/core/rag/vectore_store.py` — `VectorStore.add_documents`.
* `src/core/rag/incidents_vectorstore.py` — `get_similar_incidents`.
* `src/apps/analytics/routes.py` — `get_similar_incidents_analysis`.

External services (Gemini embeddings, chroma collections, pgvector) are
modelled as oracles: a view oracle maps a view name to the outcome of
embedding the query and querying that view's collection, namely an error or
the full ranked result list of `(doc_id, distance)` pairs (chroma returns ids
as stringified dataframe row indices; we use the row index directly).
-/

namespace CapsBe

/-- Python exceptions that can escape the embedded fragments.
`zeroDivision` models `ZeroDivisionError` from float division by `0.0`;
`keyError` models `collections[context_type]` on a missing key; the other
two model embedding-backend and index failures raised inside a view's
processing. -/
inductive PyErr where
  | zeroDivision
  | keyError (k : String)
  | indexUnavailable (view : String)
  | embedError (view : String)
deriving DecidableEq, Repr

/-- One view's query outcome: parallel `ids`/`distances` lists from
`collection.query`, modelled as a list of `(doc_id, distance)` pairs in
chroma's returned order (nearest first). -/
abbrev QueryResult := List (Nat × ℚ)

/-- The environment of `multi_context_query`: for each context-type name,
the combined outcome of `generate_gemini_embeddings([query_text])` and
`collections[context_type].query(..., n_results=len(df))` for the fixed
query text of the call. -/
abbrev ViewOracle := String → Except PyErr QueryResult

/-- Models `max_dist = max(distances) if distances else 1.0` from
`multi_context_query` (src/main.py line 235), where
`distances = results['distances'][0]`. -/
def maxDistOf (res : QueryResult) : ℚ :=
  match res.map Prod.snd with
  | [] => 1
  | d :: ds => ds.foldl max d

/-- The per-view body of the fusion loop (src/main.py lines 233-240):
`score = (1 - (distances[i] / max_dist)) * weight` for each returned id.
Python float division raises `ZeroDivisionError` when `max_dist == 0.0`,
which happens exactly when the result set is non-empty and every distance
is zero (the empty case is guarded: `max_dist` defaults to `1.0` and the
loop body never runs). -/
def viewScores (w : ℚ) (res : QueryResult) : Except PyErr QueryResult :=
  match res with
  | [] => .ok []
  | _ =>
    if maxDistOf res = 0 then .error .zeroDivision
    else .ok (res.map fun p => (p.1, (1 - p.2 / maxDistOf res) * w))

/-- Models `doc_scores[doc_id] = doc_scores.get(doc_id, 0) + score` on a
Python dict: update in place when the key exists, append otherwise (Python
dicts preserve insertion order). -/
def addScore : List (Nat × ℚ) → Nat → ℚ → List (Nat × ℚ)
  | [], id, s => [(id, s)]
  | (i, v) :: t, id, s =>
    if i = id then (i, v + s) :: t else (i, v) :: addScore t id s

/-- Fold one view's scores into the `doc_scores` dict. -/
def accumScores (acc : List (Nat × ℚ)) (scores : QueryResult) : List (Nat × ℚ) :=
  scores.foldl (fun a p => addScore a p.1 p.2) acc

/-- The `for context_type, weight in weights.items()` loop of
`multi_context_query` (src/main.py lines 224-240), carried out over the
weight list in dict-insertion order, threading the `doc_scores` dict.
Any exception from a view's embed or index query propagates immediately:
the loop body has no `try`/`except`. -/
def fuseViews (views : ViewOracle) : List (String × ℚ) → List (Nat × ℚ) →
    Except PyErr (List (Nat × ℚ))
  | [], acc => .ok acc
  | (v, w) :: rest, acc =>
    match views v with
    | .error e => .error e
    | .ok res =>
      match viewScores w res with
      | .error e => .error e
      | .ok scores => fuseViews views rest (accumScores acc scores)

/-- Stable insertion of a pair into a list kept in descending score order:
the new element goes before the first element of not-larger score. -/
def insertDesc (p : Nat × ℚ) : List (Nat × ℚ) → List (Nat × ℚ)
  | [] => [p]
  | q :: t => if q.2 ≤ p.2 then p :: q :: t else q :: insertDesc p t

/-- Models `sorted(doc_scores.items(), key=lambda x: x[1], reverse=True)`
(src/main.py line 243). CPython's sort is stable and `reverse=True`
preserves the original order of elements with equal keys, which is exactly
what this stable insertion sort by descending second component computes. -/
def sortDesc : List (Nat × ℚ) → List (Nat × ℚ)
  | [] => []
  | p :: t => insertDesc p (sortDesc t)

/-- Embeds `multi_context_query` (src/main.py lines 206-247), restricted to
what it returns: the ordered list of dataframe row indices of
`df.iloc[top_ids]`. The `weights` argument is the explicit weight dict
(callers passing `None` get the five-view default dict and are covered by
that concrete list). -/
def multi_context_query (views : ViewOracle) (weights : List (String × ℚ))
    (n_results : Nat) : Except PyErr (List Nat) :=
  match fuseViews views weights [] with
  | .error e => .error e
  | .ok ds => .ok (((sortDesc ds).take n_results).map Prod.fst)

/-- Embeds `query_crime_data` (src/main.py lines 186-204): query one
collection with `n_results` and return the matched row indices in chroma's
nearest-first order. The oracle holds the full ranking; a query with
`n_results=k` returns its first `k` entries. -/
def query_crime_data (views : ViewOracle) (context_type : String)
    (n_results : Nat) : Except PyErr (List Nat) :=
  match views context_type with
  | .error e => .error e
  | .ok res => .ok ((res.take n_results).map Prod.fst)

/-!
## Incident service (src/apps/incidents/services.py)

The primary store is a `Session` over `Incident` rows; the derived vector
store holds one document per incident. We model the primary store as a list
of incidents, the vector store as a list of `(incident_id, page_content)`
documents, the commit outcome as an `Except` value supplied by the
database, and each vector-store sync call as a state transformer that may
fail (the sync helpers in `incidents_vectorstore.py` log and re-raise, so
their outcome is exactly the backend's outcome).
-/

/-- The fields of an incident row that the modelled operations touch. -/
structure Incident where
  id : Nat
  title : String
  description : String
deriving DecidableEq, Repr

/-- Vector-store contents: one `(incident_id, document_text)` per synced
incident. -/
abbrev VDocs := List (Nat × String)

/-- Embeds `IncidentService.create_incident` (services.py lines 98-161).
After `session.add`/`session.commit` succeed, the call to
`add_incident_to_vector_store` sits in its own `try`, whose `except` only
logs (line 155): a sync failure leaves the committed row in place and the
method still returns the formatted incident. A commit failure
(`SQLAlchemyError`) rolls back and raises `ValueError` (lines 158-161).
Returns the primary store, the vector store, and the outcome. -/
def create_incident (db : List Incident) (vs : VDocs) (inc : Incident)
    (commit : Except String Unit) (syncAdd : VDocs → Except String VDocs) :
    List Incident × VDocs × Except String Incident :=
  match commit with
  | .error e => (db, vs, .error e)
  | .ok _ =>
    let db' := db ++ [inc]
    match syncAdd vs with
    | .ok vs' => (db', vs', .ok inc)
    | .error _ => (db', vs, .ok inc)

/-- Embeds `IncidentService.update_incident` (services.py lines 164-238).
A missing id returns `None` before any mutation; otherwise the updated row
is committed and `update_incident_in_vector_store` is attempted inside a
log-only `try`/`except` (lines 229-232). The update payload is modelled by
the new description (one representative mutable field). -/
def update_incident (db : List Incident) (vs : VDocs) (incident_id : Nat)
    (newDesc : String) (commit : Except String Unit)
    (syncUpd : VDocs → Except String VDocs) :
    List Incident × VDocs × Except String (Option Incident) :=
  match db.find? (fun i => i.id == incident_id) with
  | none => (db, vs, .ok none)
  | some inc =>
    match commit with
    | .error e => (db, vs, .error e)
    | .ok _ =>
      let inc' : Incident := { inc with description := newDesc }
      let db' := db.map (fun i => if i.id = incident_id then inc' else i)
      match syncUpd vs with
      | .ok vs' => (db', vs', .ok (some inc'))
      | .error _ => (db', vs, .ok (some inc'))

/-- Embeds `IncidentService.delete_incident` (services.py lines 241-261).
A missing id returns `False`; otherwise the row is deleted and committed,
then `delete_incident_from_vector_store` is attempted inside a log-only
`try`/`except` (lines 252-255) and the method returns `True` regardless. -/
def delete_incident (db : List Incident) (vs : VDocs) (incident_id : Nat)
    (commit : Except String Unit) (syncDel : VDocs → Except String VDocs) :
    List Incident × VDocs × Except String Bool :=
  match db.find? (fun i => i.id == incident_id) with
  | none => (db, vs, .ok false)
  | some _ =>
    match commit with
    | .error e => (db, vs, .error e)
    | .ok _ =>
      let db' := db.filter (fun i => i.id != incident_id)
      match syncDel vs with
      | .ok vs' => (db', vs', .ok true)
      | .error _ => (db', vs, .ok true)

/-!
## VectorStore.add_documents (src/core/rag/vectore_store.py)

The configured `embedding_dimensions` (768) is stored on
`VectorStoreConfig` but read nowhere. `add_documents` (lines 230-249)
short-circuits an empty list to `[]` and otherwise hands the documents to
`PGVector.add_documents`, re-raising whatever the backend raises. The
backend is external (langchain_postgres); `vectore_store.py` constructs it
without an `embedding_length`, so the pgvector column is dimensionless and
an insert is not length-validated. Documents are modelled as
`(id, embedding_vector)` pairs.
-/

/-- Configuration from `VectorStoreConfig.__init__` (the field the
dimension claims are about). -/
structure VSConfig where
  embedding_dimensions : Nat
deriving DecidableEq, Repr

/-- A vector store: its configuration plus the stored
`(id, embedding)` entries of the backing collection. -/
structure VectorStoreSt where
  config : VSConfig
  entries : List (Nat × List ℚ)
deriving DecidableEq, Repr

/-- Model of the external `PGVector.add_documents` as constructed by
`vectore_store.py` (no `embedding_length` argument, hence a dimensionless
pgvector column): it appends the entries without any length validation and
returns their ids. -/
def pgvectorAdd (st : VectorStoreSt) (docs : List (Nat × List ℚ)) :
    Except String (VectorStoreSt × List Nat) :=
  .ok ({ st with entries := st.entries ++ docs }, docs.map Prod.fst)

/-- Embeds `VectorStore.add_documents` (vectore_store.py lines 230-249):
empty input returns `[]` after a warning; otherwise the call is delegated
to the backend, and an exception is logged and re-raised unchanged. -/
def add_documents
    (backend : VectorStoreSt → List (Nat × List ℚ) →
      Except String (VectorStoreSt × List Nat))
    (st : VectorStoreSt) (docs : List (Nat × List ℚ)) :
    Except String (VectorStoreSt × List Nat) :=
  if docs.isEmpty then .ok (st, [])
  else
    match backend st docs with
    | .ok r => .ok r
    | .error e => .error e

/-!
## Similar-incident lookup (src/core/rag/incidents_vectorstore.py and
src/apps/analytics/routes.py)

The underlying `similarity_search` with parameter `k` is modelled as an
oracle from `k` to either an error or the ranked list of matched incident
ids (each returned document's `metadata["id"]`).
-/

/-- Embeds `get_similar_incidents` (incidents_vectorstore.py lines
121-150): the whole body sits in one `try`; any exception — from the
vector-store search or from the metadata extraction — is logged and the
function returns `[]`. -/
def get_similar_incidents (search : Nat → Except String (List Nat))
    (k : Nat) : List Nat :=
  match search k with
  | .ok docs => docs
  | .error _ => []

/-- Embeds the retrieval core of `get_similar_incidents_analysis`
(analytics/routes.py lines 415-429, after the 404 guard): call
`get_similar_incidents` with `k + 1`, drop every entry whose id equals the
source incident's id, and truncate to `k`. -/
def get_similar_incidents_analysis (search : Nat → Except String (List Nat))
    (source_id : Nat) (k : Nat) : List Nat :=
  ((get_similar_incidents search (k + 1)).filter
    (fun i => decide (i ≠ source_id))).take k

/-!
## Derived definitions used by the statements
-/

/-- Lookup of a doc id in the `doc_scores` association list. -/
def getScore : List (Nat × ℚ) → Nat → Option ℚ
  | [], _ => none
  | (i, v) :: t, k => if i = k then some v else getScore t k

/-- The association list has pairwise-distinct keys (as every Python dict
snapshot does). -/
def keysNodup (l : List (Nat × ℚ)) : Prop := (l.map Prod.fst).Nodup

/-- Sum of the weights of a weight list. -/
def sumWeights (ws : List (String × ℚ)) : ℚ := (ws.map Prod.snd).sum

/-- Scale every score of a `doc_scores` snapshot by `c`. -/
def scaleScores (c : ℚ) (l : List (Nat × ℚ)) : List (Nat × ℚ) :=
  l.map fun p => (p.1, c * p.2)

/-- Scale every weight of a weight list by `c`. -/
def scaleWeights (c : ℚ) (ws : List (String × ℚ)) : List (String × ℚ) :=
  ws.map fun p => (p.1, c * p.2)

/-- Well-formedness of one chroma query result: distances are nonnegative
and returned ids are pairwise distinct (chroma ids are unique per
collection). -/
def resultWF (res : QueryResult) : Prop :=
  (∀ p ∈ res, 0 ≤ p.2) ∧ (res.map Prod.fst).Nodup

/-- Full well-formedness of a ranked chroma result: additionally the rows
come back nearest-first (distances ascending) and at least one distance is
nonzero unless the result is empty (the degenerate all-zero case makes the
Python code raise, see the zero-division claim). -/
def rankedWF (res : QueryResult) : Prop :=
  resultWF res ∧ res.Pairwise (fun a b => a.2 ≤ b.2) ∧
    (res = [] ∨ maxDistOf res ≠ 0)

/-- One iteration of the fusion loop raises: either the view's
embed or index query raises, or the score normalization divides by zero. -/
def stepFails (views : ViewOracle) (v : String) (w : ℚ) : Prop :=
  match views v with
  | .error _ => True
  | .ok res => ∃ e, viewScores w res = .error e

/-!
## Concrete environments used as counterexamples and witnesses
-/

/-- One populated view with distances 0 and 1 (any other name is a missing
collection key). -/
def viewsNormEx : ViewOracle := fun v =>
  if v = "full_context" then .ok [(0, 0), (1, 1)] else .error (.keyError v)

/-- Two populated views; the full-context view ranks ids 1 and 2 at the
same distance (tie broken by insertion id, matching the spec's index
determinism), the geo view ranks them the other way round. -/
def viewsTieEx : ViewOracle := fun v =>
  if v = "geo_context" then .ok [(2, 0), (1, 1)]
  else if v = "full_context" then .ok [(1, 1), (2, 1)]
  else .error (.keyError v)

/-- A healthy full-context view; every other view's index raises. -/
def viewsOutageEx : ViewOracle := fun v =>
  if v = "full_context" then .ok [(0, 1)] else .error (.indexUnavailable v)

/-- A single one-row view. -/
def viewsSingleEx : ViewOracle := fun v =>
  if v = "full_context" then .ok [(0, 1)] else .error (.keyError v)

/-- A single view whose two rows tie at distance 1 with the larger id
first. -/
def viewsTieIdEx : ViewOracle := fun v =>
  if v = "full_context" then .ok [(2, 1), (1, 1)] else .error (.keyError v)

/-- A single view returning a non-empty result whose distances are all
zero. -/
def viewsZeroDistEx : ViewOracle := fun v =>
  if v = "full_context" then .ok [(0, 0), (1, 0)] else .error (.keyError v)

/-!
## Lemmas about the fusion pipeline
-/

theorem le_foldl_max (l : List ℚ) (x : ℚ) : x ≤ l.foldl max x := by
  induction l generalizing x with
  | nil => exact le_refl x
  | cons b t ih => exact le_trans (le_max_left x b) (ih (max x b))

theorem mem_le_foldl_max (l : List ℚ) (x a : ℚ) (h : a ∈ l) :
    a ≤ l.foldl max x := by
  induction l generalizing x with
  | nil => cases h
  | cons b t ih =>
    rcases List.mem_cons.mp h with rfl | h'
    · exact le_trans (le_max_right x a) (le_foldl_max t (max x a))
    · exact ih (max x b) h'

theorem snd_le_maxDistOf (res : QueryResult) (p : Nat × ℚ) (hp : p ∈ res) :
    p.2 ≤ maxDistOf res := by
  cases res with
  | nil => cases hp
  | cons q t =>
    show p.2 ≤ (t.map Prod.snd).foldl max q.2
    rcases List.mem_cons.mp hp with rfl | h'
    · exact le_foldl_max _ _
    · exact mem_le_foldl_max _ _ _ (List.mem_map_of_mem Prod.snd h')

theorem maxDistOf_pos (res : QueryResult) (hd : ∀ p ∈ res, 0 ≤ p.2)
    (hne : res ≠ []) (h0 : maxDistOf res ≠ 0) : 0 < maxDistOf res := by
  cases res with
  | nil => cases hne rfl
  | cons q t =>
    have hq : q.2 ≤ maxDistOf (q :: t) := snd_le_maxDistOf _ q (by simp)
    have : 0 ≤ maxDistOf (q :: t) := le_trans (hd q (by simp)) hq
    exact lt_of_le_of_ne this (Ne.symm h0)

theorem viewScores_ok_elim (w : ℚ) (res scores : QueryResult)
    (h : viewScores w res = .ok scores) :
    scores = res.map fun p => (p.1, (1 - p.2 / maxDistOf res) * w) := by
  cases res with
  | nil => simpa [viewScores] using h.symm
  | cons q t =>
    by_cases h0 : maxDistOf (q :: t) = 0
    · simp [viewScores, h0] at h
    · simpa [viewScores, h0] using h.symm

theorem viewScores_ok_maxDist (w : ℚ) (res scores : QueryResult)
    (h : viewScores w res = .ok scores) :
    res = [] ∨ maxDistOf res ≠ 0 := by
  cases res with
  | nil => exact Or.inl rfl
  | cons q t =>
    by_cases h0 : maxDistOf (q :: t) = 0
    · simp [viewScores, h0] at h
    · exact Or.inr h0

theorem viewScores_eq_ok (w : ℚ) (res : QueryResult)
    (h0 : res = [] ∨ maxDistOf res ≠ 0) :
    viewScores w res =
      .ok (res.map fun p => (p.1, (1 - p.2 / maxDistOf res) * w)) := by
  cases res with
  | nil => rfl
  | cons q t =>
    rcases h0 with h0 | h0
    · cases h0
    · simp [viewScores, h0]

theorem viewScores_ids (w : ℚ) (res scores : QueryResult)
    (h : viewScores w res = .ok scores) :
    scores.map Prod.fst = res.map Prod.fst := by
  rw [viewScores_ok_elim w res scores h, List.map_map]
  rfl

theorem viewScores_bounds (w : ℚ) (res scores : QueryResult) (hw : 0 ≤ w)
    (hd : ∀ p ∈ res, 0 ≤ p.2) (h : viewScores w res = .ok scores) :
    ∀ p ∈ scores, 0 ≤ p.2 ∧ p.2 ≤ w := by
  intro p hp
  rw [viewScores_ok_elim w res scores h] at hp
  rcases List.mem_map.mp hp with ⟨q, hq, rfl⟩
  have hne : res ≠ [] := by rintro rfl; cases hq
  have h0 : maxDistOf res ≠ 0 := by
    rcases viewScores_ok_maxDist w res scores h with h' | h'
    · cases hne h'
    · exact h'
  have hm : 0 < maxDistOf res := maxDistOf_pos res hd hne h0
  have hdiv0 : 0 ≤ q.2 / maxDistOf res := div_nonneg (hd q hq) (le_of_lt hm)
  have hdiv1 : q.2 / maxDistOf res ≤ 1 :=
    (div_le_one hm).mpr (snd_le_maxDistOf res q hq)
  constructor
  · exact mul_nonneg (by linarith) hw
  · calc (1 - q.2 / maxDistOf res) * w ≤ 1 * w := by
          apply mul_le_mul_of_nonneg_right _ hw; linarith
       _ = w := one_mul w

theorem addScore_getScore (acc : List (Nat × ℚ)) (id k : Nat) (s : ℚ) :
    getScore (addScore acc id s) k =
      if k = id then some ((getScore acc k).getD 0 + s) else getScore acc k := by
  induction acc with
  | nil =>
    by_cases hk : k = id
    · subst hk; simp [addScore, getScore]
    · have hk' : ¬id = k := fun h => hk h.symm
      simp [addScore, getScore, hk, hk']
  | cons q t ih =>
    obtain ⟨i, v⟩ := q
    by_cases hi : i = id
    · subst hi
      by_cases hk : k = i
      · subst hk; simp [addScore, getScore]
      · have hk' : ¬i = k := fun h => hk h.symm
        simp [addScore, getScore, hk, hk']
    · by_cases hk : i = k
      · subst hk
        have hk2 : ¬i = id := hi
        have hk3 : ¬id = i := fun h => hi h.symm
        simp [addScore, hi, getScore, hk2, hk3]
      · simp [addScore, hi, getScore, hk, ih]

theorem addScore_keys (acc : List (Nat × ℚ)) (id : Nat) (s : ℚ) :
    (addScore acc id s).map Prod.fst =
      if id ∈ acc.map Prod.fst then acc.map Prod.fst
      else acc.map Prod.fst ++ [id] := by
  induction acc with
  | nil => simp [addScore]
  | cons q t ih =>
    obtain ⟨i, v⟩ := q
    by_cases hi : i = id
    · subst hi; simp [addScore]
    · have hi' : ¬id = i := fun h => hi h.symm
      by_cases hm : id ∈ t.map Prod.fst
      · simp [addScore, hi, ih, hi', hm]
      · simp [addScore, hi, ih, hi', hm]

theorem addScore_keysNodup (acc : List (Nat × ℚ)) (id : Nat) (s : ℚ)
    (h : keysNodup acc) : keysNodup (addScore acc id s) := by
  unfold keysNodup at h ⊢
  rw [addScore_keys]
  by_cases hm : id ∈ acc.map Prod.fst
  · simpa [hm] using h
  · rw [if_neg hm, List.nodup_append]
    refine ⟨h, List.nodup_singleton id, ?_⟩
    intro a ha hb
    rw [List.mem_singleton] at hb
    subst hb
    exact hm ha

theorem accumScores_keysNodup (scores acc : List (Nat × ℚ))
    (h : keysNodup acc) : keysNodup (accumScores acc scores) := by
  induction scores generalizing acc with
  | nil => exact h
  | cons q t ih => exact ih _ (addScore_keysNodup acc q.1 q.2 h)

theorem accumScores_getScore_not_mem (scores acc : List (Nat × ℚ)) (k : Nat)
    (hk : k ∉ scores.map Prod.fst) :
    getScore (accumScores acc scores) k = getScore acc k := by
  induction scores generalizing acc with
  | nil => rfl
  | cons q t ih =>
    have hk1 : k ≠ q.1 := by intro h; exact hk (by simp [h])
    have hk2 : k ∉ t.map Prod.fst := fun h => hk (by simp [h])
    show getScore (accumScores (addScore acc q.1 q.2) t) k = getScore acc k
    rw [ih _ hk2, addScore_getScore, if_neg hk1]

theorem accumScores_getScore_mem (scores acc : List (Nat × ℚ)) (k : Nat)
    (s : ℚ) (hnd : (scores.map Prod.fst).Nodup) (hm : (k, s) ∈ scores) :
    getScore (accumScores acc scores) k =
      some ((getScore acc k).getD 0 + s) := by
  induction scores generalizing acc with
  | nil => cases hm
  | cons q t ih =>
    have hnd2 := List.nodup_cons.mp (show (q.1 :: t.map Prod.fst).Nodup by
      simpa using hnd)
    rcases List.mem_cons.mp hm with rfl | hm'
    · show getScore (accumScores (addScore acc k s) t) k = _
      rw [accumScores_getScore_not_mem t _ k hnd2.1, addScore_getScore,
        if_pos rfl]
    · have hk1 : k ≠ q.1 := by
        intro h
        have hmem : k ∈ t.map Prod.fst := List.mem_map_of_mem Prod.fst hm'
        rw [h] at hmem
        exact hnd2.1 hmem
      show getScore (accumScores (addScore acc q.1 q.2) t) k = _
      rw [ih _ hnd2.2 hm', addScore_getScore, if_neg hk1]

theorem getScore_eq_some_of_mem (acc : List (Nat × ℚ)) (p : Nat × ℚ)
    (hnd : keysNodup acc) (hm : p ∈ acc) : getScore acc p.1 = some p.2 := by
  induction acc with
  | nil => cases hm
  | cons q t ih =>
    have hnd2 := List.nodup_cons.mp (show (q.1 :: t.map Prod.fst).Nodup by
      simpa [keysNodup] using hnd)
    rcases List.mem_cons.mp hm with rfl | hm'
    · simp [getScore]
    · have hq : q.1 ≠ p.1 := by
        intro h
        have hmem : p.1 ∈ t.map Prod.fst := List.mem_map_of_mem Prod.fst hm'
        rw [← h] at hmem
        exact hnd2.1 hmem
      show (if q.1 = p.1 then some q.2 else getScore t p.1) = some p.2
      rw [if_neg hq]
      exact ih hnd2.2 hm'

theorem mem_of_getScore_eq_some (acc : List (Nat × ℚ)) (k : Nat) (v : ℚ)
    (h : getScore acc k = some v) : (k, v) ∈ acc := by
  induction acc with
  | nil => cases h
  | cons q t ih =>
    by_cases hq : q.1 = k
    · have : some q.2 = some v := by simpa [getScore, hq] using h
      have hv : q.2 = v := Option.some.inj this
      exact List.mem_cons.mpr (Or.inl (by cases q; simp_all))
    · have h' : getScore t k = some v := by simpa [getScore, hq] using h
      exact List.mem_cons.mpr (Or.inr (ih h'))

theorem fuseViews_keysNodup (views : ViewOracle) (ws : List (String × ℚ)) :
    ∀ acc ds, keysNodup acc → fuseViews views ws acc = .ok ds →
      keysNodup ds := by
  induction ws with
  | nil =>
    intro acc ds hnd h
    cases h
    exact hnd
  | cons q rest ih =>
    obtain ⟨v, w⟩ := q
    intro acc ds hnd h
    cases hv : views v with
    | error e => simp [fuseViews, hv] at h
    | ok res =>
      cases hsc : viewScores w res with
      | error e => simp [fuseViews, hv, hsc] at h
      | ok scores =>
        simp only [fuseViews, hv, hsc] at h
        exact ih _ _ (accumScores_keysNodup scores acc hnd) h

theorem fuseViews_bound (views : ViewOracle)
    (hviews : ∀ v res, views v = .ok res → resultWF res)
    (ws : List (String × ℚ)) :
    ∀ (acc ds : List (Nat × ℚ)) (H : ℚ),
    (∀ p ∈ ws, 0 ≤ p.2) → 0 ≤ H → keysNodup acc →
    (∀ k val, getScore acc k = some val → 0 ≤ val ∧ val ≤ H) →
    fuseViews views ws acc = .ok ds →
    ∀ k val, getScore ds k = some val → 0 ≤ val ∧ val ≤ H + sumWeights ws := by
  induction ws with
  | nil =>
    intro acc ds H _ hH hnd hinv h k val hk
    cases h
    have := hinv k val hk
    simp only [sumWeights, List.map_nil, List.sum_nil, add_zero]
    exact this
  | cons q rest ih =>
    obtain ⟨v, w⟩ := q
    intro acc ds H hws hH hnd hinv h k val hk
    have hw : 0 ≤ w := hws (v, w) (by simp)
    cases hv : views v with
    | error e => simp [fuseViews, hv] at h
    | ok res =>
      cases hsc : viewScores w res with
      | error e => simp [fuseViews, hv, hsc] at h
      | ok scores =>
        simp only [fuseViews, hv, hsc] at h
        have hwf := hviews v res hv
        have hbnd := viewScores_bounds w res scores hw hwf.1 hsc
        have hkeys : scores.map Prod.fst = res.map Prod.fst :=
          viewScores_ids w res scores hsc
        have hsnd : (scores.map Prod.fst).Nodup := by rw [hkeys]; exact hwf.2
        have hinv' : ∀ k' val',
            getScore (accumScores acc scores) k' = some val' →
            0 ≤ val' ∧ val' ≤ H + w := by
          intro k' val' hval'
          by_cases hmem : k' ∈ scores.map Prod.fst
          · rcases List.mem_map.mp hmem with ⟨p, hp, hp1⟩
            have hacc := accumScores_getScore_mem scores acc p.1 p.2 hsnd
              (by cases p; exact hp)
            rw [hp1] at hacc
            rw [hacc] at hval'
            have hval'' := Option.some.inj hval'
            have hpb := hbnd p hp
            cases hgs : getScore acc k' with
            | none =>
              rw [hgs] at hval''
              simp only [Option.getD_none] at hval''
              constructor
              · rw [← hval'']; linarith [hpb.1]
              · rw [← hval'']; linarith [hpb.2]
            | some u =>
              have hu := hinv k' u hgs
              rw [hgs] at hval''
              simp only [Option.getD_some] at hval''
              constructor
              · rw [← hval'']; linarith [hpb.1, hu.1]
              · rw [← hval'']; linarith [hpb.2, hu.2]
          · rw [accumScores_getScore_not_mem scores acc k' hmem] at hval'
            have := hinv k' val' hval'
            constructor
            · exact this.1
            · linarith [this.2]
        have := ih (accumScores acc scores) ds (H + w)
          (fun p hp => hws p (by simp [hp])) (by linarith)
          (accumScores_keysNodup scores acc hnd) hinv' h k val hk
        have hsum : sumWeights ((v, w) :: rest) = w + sumWeights rest := by
          simp [sumWeights]
        rw [hsum]
        constructor
        · exact this.1
        · linarith [this.2]

theorem viewScores_scale (c w : ℚ) (res scores : QueryResult)
    (h : viewScores w res = .ok scores) :
    viewScores (c * w) res = .ok (scaleScores c scores) := by
  have h0 := viewScores_ok_maxDist w res scores h
  rw [viewScores_eq_ok (c * w) res h0]
  rw [viewScores_ok_elim w res scores h]
  congr 1
  rw [scaleScores, List.map_map]
  apply List.map_congr_left
  intro p _
  simp only [Function.comp_apply]
  ring_nf

theorem addScore_scale (c : ℚ) (acc : List (Nat × ℚ)) (id : Nat) (s : ℚ) :
    addScore (scaleScores c acc) id (c * s) = scaleScores c (addScore acc id s) := by
  induction acc with
  | nil => simp [addScore, scaleScores]
  | cons q t ih =>
    obtain ⟨i, v⟩ := q
    by_cases hi : i = id
    · subst hi; simp [addScore, scaleScores, mul_add]
    · simp [addScore, scaleScores, hi] at ih ⊢
      exact ih

theorem accumScores_scale (c : ℚ) (scores : QueryResult) :
    ∀ acc, accumScores (scaleScores c acc) (scaleScores c scores) =
      scaleScores c (accumScores acc scores) := by
  induction scores with
  | nil => intro acc; rfl
  | cons q t ih =>
    intro acc
    show accumScores (addScore (scaleScores c acc) q.1 (c * q.2))
      (scaleScores c t) = _
    rw [addScore_scale c acc q.1 q.2]
    exact ih (addScore acc q.1 q.2)

theorem fuseViews_scale (views : ViewOracle) (c : ℚ)
    (ws : List (String × ℚ)) :
    ∀ acc ds, fuseViews views ws acc = .ok ds →
    fuseViews views (scaleWeights c ws) (scaleScores c acc) =
      .ok (scaleScores c ds) := by
  induction ws with
  | nil =>
    intro acc ds h
    cases h
    rfl
  | cons q rest ih =>
    obtain ⟨v, w⟩ := q
    intro acc ds h
    cases hv : views v with
    | error e => simp [fuseViews, hv] at h
    | ok res =>
      cases hsc : viewScores w res with
      | error e => simp [fuseViews, hv, hsc] at h
      | ok scores =>
        simp only [fuseViews, hv, hsc] at h
        show fuseViews views ((v, c * w) :: scaleWeights c rest) _ = _
        simp only [fuseViews, hv, viewScores_scale c w res scores hsc]
        rw [accumScores_scale c scores acc]
        exact ih _ _ h

theorem fuseViews_error_of_stepFails (views : ViewOracle) (v : String)
    (w : ℚ) (hf : stepFails views v w) (ws : List (String × ℚ)) :
    ∀ acc, (v, w) ∈ ws → ∃ e, fuseViews views ws acc = .error e := by
  induction ws with
  | nil => intro acc h; cases h
  | cons q rest ih =>
    obtain ⟨a, b⟩ := q
    intro acc hmem
    rcases List.mem_cons.mp hmem with heq | hmem'
    · obtain ⟨rfl, rfl⟩ := Prod.mk.injEq a b v w ▸ And.intro
        (congrArg Prod.fst heq.symm) (congrArg Prod.snd heq.symm)
      unfold stepFails at hf
      cases hv : views v with
      | error e => exact ⟨e, by simp [fuseViews, hv]⟩
      | ok res =>
        rw [hv] at hf
        obtain ⟨e, he⟩ := hf
        exact ⟨e, by simp [fuseViews, hv, he]⟩
    · cases hv : views a with
      | error e => exact ⟨e, by simp [fuseViews, hv]⟩
      | ok res =>
        cases hsc : viewScores b res with
        | error e => exact ⟨e, by simp [fuseViews, hv, hsc]⟩
        | ok scores =>
          obtain ⟨e, he⟩ := ih (accumScores acc scores) hmem'
          exact ⟨e, by simp only [fuseViews, hv, hsc]; exact he⟩

theorem insertDesc_perm (p : Nat × ℚ) (l : List (Nat × ℚ)) :
    (insertDesc p l).Perm (p :: l) := by
  induction l with
  | nil => exact List.Perm.refl _
  | cons q t ih =>
    by_cases hle : q.2 ≤ p.2
    · rw [insertDesc, if_pos hle]
    · rw [insertDesc, if_neg hle]
      exact List.Perm.trans (List.Perm.cons q ih) (List.Perm.swap p q t)

theorem sortDesc_perm (l : List (Nat × ℚ)) : (sortDesc l).Perm l := by
  induction l with
  | nil => exact List.Perm.refl _
  | cons p t ih =>
    exact List.Perm.trans (insertDesc_perm p (sortDesc t)) (List.Perm.cons p ih)

theorem insertDesc_sorted (p : Nat × ℚ) (l : List (Nat × ℚ))
    (h : l.Pairwise (fun a b => b.2 ≤ a.2)) :
    (insertDesc p l).Pairwise (fun a b => b.2 ≤ a.2) := by
  induction l with
  | nil => simp [insertDesc]
  | cons q t ih =>
    have hq := (List.pairwise_cons.mp h).1
    have ht := (List.pairwise_cons.mp h).2
    by_cases hle : q.2 ≤ p.2
    · rw [insertDesc, if_pos hle]
      refine List.pairwise_cons.mpr ⟨?_, h⟩
      intro b hb
      rcases List.mem_cons.mp hb with rfl | hb'
      · exact hle
      · exact le_trans (hq b hb') hle
    · rw [insertDesc, if_neg hle]
      refine List.pairwise_cons.mpr ⟨?_, ih ht⟩
      intro b hb
      have hb2 : b ∈ p :: t := (insertDesc_perm p t).mem_iff.mp hb
      rcases List.mem_cons.mp hb2 with rfl | hb'
      · exact le_of_lt (lt_of_not_ge hle)
      · exact hq b hb'

theorem sortDesc_sorted (l : List (Nat × ℚ)) :
    (sortDesc l).Pairwise (fun a b => b.2 ≤ a.2) := by
  induction l with
  | nil => simp [sortDesc]
  | cons p t ih => exact insertDesc_sorted p (sortDesc t) ih

theorem sortDesc_of_sorted (l : List (Nat × ℚ))
    (h : l.Pairwise (fun a b => b.2 ≤ a.2)) : sortDesc l = l := by
  induction l with
  | nil => rfl
  | cons p t ih =>
    have hp := (List.pairwise_cons.mp h).1
    have ht := (List.pairwise_cons.mp h).2
    rw [sortDesc, ih ht]
    cases t with
    | nil => rfl
    | cons q t' =>
      rw [insertDesc, if_pos (hp q (by simp))]

theorem addScore_not_mem (acc : List (Nat × ℚ)) (id : Nat) (s : ℚ)
    (h : id ∉ acc.map Prod.fst) : addScore acc id s = acc ++ [(id, s)] := by
  induction acc with
  | nil => rfl
  | cons q t ih =>
    have hq : q.1 ≠ id := by
      intro h'; exact h (by simp [h'])
    obtain ⟨i, v⟩ := q
    rw [addScore, if_neg hq]
    rw [ih (fun h' => h (by simp [h']))]
    rfl

theorem accumScores_eq_append (scores : QueryResult) :
    ∀ acc, (scores.map Prod.fst).Nodup →
    (∀ k ∈ scores.map Prod.fst, k ∉ acc.map Prod.fst) →
    accumScores acc scores = acc ++ scores := by
  induction scores with
  | nil => intro acc _ _; simp [accumScores]
  | cons q t ih =>
    intro acc hnd hdisj
    have hnd2 := List.nodup_cons.mp (show (q.1 :: t.map Prod.fst).Nodup by
      simpa using hnd)
    have hq : q.1 ∉ acc.map Prod.fst := hdisj q.1 (by simp)
    show accumScores (addScore acc q.1 q.2) t = _
    rw [addScore_not_mem acc q.1 q.2 hq]
    have : (q.1, q.2) = q := by cases q; rfl
    rw [this]
    rw [ih (acc ++ [q]) hnd2.2 ?_]
    · rw [List.append_assoc]; rfl
    · intro k hk
      rw [List.map_append, List.mem_append]
      rintro (hk1 | hk2)
      · exact hdisj k (by simp [hk]) hk1
      · simp only [List.map_cons, List.map_nil, List.mem_singleton] at hk2
        subst hk2
        exact hnd2.1 hk

theorem foldl_max_eq_of_le (l : List ℚ) (x : ℚ) (h : ∀ a ∈ l, a ≤ x) :
    l.foldl max x = x := by
  induction l with
  | nil => rfl
  | cons b t ih =>
    have hb : max x b = x := max_eq_left (h b (by simp))
    show (t.foldl max (max x b)) = x
    rw [hb]
    exact ih (fun a ha => h a (by simp [ha]))

theorem maxDistOf_zero_of_all_zero (res : QueryResult)
    (h : ∀ p ∈ res, p.2 = 0) (hne : res ≠ []) : maxDistOf res = 0 := by
  cases res with
  | nil => cases hne rfl
  | cons q t =>
    show (t.map Prod.snd).foldl max q.2 = 0
    have hq : q.2 = 0 := h q (by simp)
    rw [hq]
    apply foldl_max_eq_of_le
    intro a ha
    rcases List.mem_map.mp ha with ⟨p, hp, rfl⟩
    rw [h p (by simp [hp])]

theorem mapped_scores_sorted (w : ℚ) (hw : 0 ≤ w) (res : QueryResult)
    (hasc : res.Pairwise fun a b => a.2 ≤ b.2)
    (hnn : ∀ p ∈ res, 0 ≤ p.2) (h0 : res = [] ∨ maxDistOf res ≠ 0) :
    (res.map fun p => (p.1, (1 - p.2 / maxDistOf res) * w)).Pairwise
      (fun a b => b.2 ≤ a.2) := by
  cases res with
  | nil => simp
  | cons q t =>
    have h0' : maxDistOf (q :: t) ≠ 0 := by
      rcases h0 with h | h
      · cases h
      · exact h
    have hm : 0 < maxDistOf (q :: t) :=
      maxDistOf_pos _ hnn (by simp) h0'
    rw [List.pairwise_map]
    refine hasc.imp ?_
    intro a b hab
    show (1 - b.2 / maxDistOf (q :: t)) * w ≤ (1 - a.2 / maxDistOf (q :: t)) * w
    have hdiv : a.2 / maxDistOf (q :: t) ≤ b.2 / maxDistOf (q :: t) :=
      (div_le_div_iff_of_pos_right hm).mpr hab
    apply mul_le_mul_of_nonneg_right _ hw
    linarith

/-!
## Claim theorems
-/

/-- C6: for every incident create, update, or delete in which the primary
store commit succeeds but the subsequent vector-store sync call raises, the
operation still returns success and the committed primary-store mutation is
not rolled back (sync failures are logged and swallowed at the service
layer). -/
theorem claim_C6_sync_failure_swallowed (db : List Incident) (vs : VDocs)
    (inc : Incident) (incident_id : Nat) (newDesc : String)
    (e₁ e₂ e₃ : String) (syncAdd syncUpd syncDel : VDocs → Except String VDocs)
    (hadd : syncAdd vs = .error e₁) (hupd : syncUpd vs = .error e₂)
    (hdel : syncDel vs = .error e₃) :
    create_incident db vs inc (.ok ()) syncAdd = (db ++ [inc], vs, .ok inc) ∧
    (∀ inc₀, db.find? (fun i => i.id == incident_id) = some inc₀ →
      update_incident db vs incident_id newDesc (.ok ()) syncUpd =
        (db.map (fun i => if i.id = incident_id then
            { inc₀ with description := newDesc } else i), vs,
          .ok (some { inc₀ with description := newDesc }))) ∧
    (∀ inc₀, db.find? (fun i => i.id == incident_id) = some inc₀ →
      delete_incident db vs incident_id (.ok ()) syncDel =
        (db.filter (fun i => i.id != incident_id), vs, .ok true)) := by
  refine ⟨?_, ?_, ?_⟩
  · unfold create_incident
    rw [hadd]
  · intro inc₀ hfind
    unfold update_incident
    rw [hfind, hupd]
  · intro inc₀ hfind
    unfold delete_incident
    rw [hfind, hdel]

/-- Witness for C6 at a concrete store of one incident with every sync
call failing. -/
theorem claim_C6_witness :
    create_incident [⟨1, "t", "d"⟩] [] ⟨2, "u", "e"⟩ (.ok ())
        (fun _ => .error "down") =
      ([⟨1, "t", "d"⟩, ⟨2, "u", "e"⟩], [], .ok ⟨2, "u", "e"⟩) ∧
    (∀ inc₀,
      List.find? (fun i => i.id == 1) [(⟨1, "t", "d"⟩ : Incident)] = some inc₀ →
      update_incident [⟨1, "t", "d"⟩] [] 1 "d2" (.ok ())
          (fun _ => .error "down") =
        (List.map (fun i => if i.id = 1 then
            { inc₀ with description := "d2" } else i) [⟨1, "t", "d"⟩], [],
          .ok (some { inc₀ with description := "d2" }))) ∧
    (∀ inc₀,
      List.find? (fun i => i.id == 1) [(⟨1, "t", "d"⟩ : Incident)] = some inc₀ →
      delete_incident [⟨1, "t", "d"⟩] [] 1 (.ok ())
          (fun _ => .error "down") =
        (List.filter (fun i => i.id != 1) [⟨1, "t", "d"⟩], [], .ok true)) :=
  claim_C6_sync_failure_swallowed [⟨1, "t", "d"⟩] [] ⟨2, "u", "e"⟩ 1 "d2"
    "down" "down" "down" (fun _ => .error "down") (fun _ => .error "down")
    (fun _ => .error "down") rfl rfl rfl

/-- C7 (code bug): the spec demands that adding a vector of the wrong
length for its view raise `DimensionMismatch` with the index unchanged,
but no part of the code validates vector lengths and no `DimensionMismatch`
exception exists: `VectorStore.add_documents` hands the documents to the
backend unchanged, and the backend built by `vectore_store.py` (PGVector
without an `embedding_length`) accepts vectors of any length. Against a
store configured for 768 dimensions, adding a 3-dimensional vector
succeeds and mutates the store. -/
theorem claim_C7_add_documents_no_dimension_check :
    add_documents pgvectorAdd ⟨⟨768⟩, []⟩ [(0, [1, 2, 3])] =
      .ok (⟨⟨768⟩, [(0, [1, 2, 3])]⟩, [0]) ∧
    ([(1 : ℚ), 2, 3].length ≠
      (VSConfig.mk 768).embedding_dimensions) := by
  constructor
  · rfl
  · intro h
    simp at h

/-- C8: the similar-incidents lookup of the analytics route returns at
most `k` record ids and never contains the source incident's id, whatever
the underlying vector search returns. -/
theorem claim_C8_similar_excludes_source
    (search : Nat → Except String (List Nat)) (source_id k : Nat) :
    (get_similar_incidents_analysis search source_id k).length ≤ k ∧
    source_id ∉ get_similar_incidents_analysis search source_id k := by
  unfold get_similar_incidents_analysis
  constructor
  · rw [List.length_take]
    exact min_le_left _ _
  · intro hmem
    have hmem' := List.mem_of_mem_take hmem
    have := List.of_mem_filter hmem'
    simp at this

/-- C10: `get_similar_incidents` never raises; a failing backend search is
logged and turned into `[]`, indistinguishable from a legitimate zero-match
result. -/
theorem claim_C10_search_failure_returns_empty
    (search : Nat → Except String (List Nat)) (k : Nat) (e : String)
    (hfail : search k = .error e) :
    get_similar_incidents search k = [] ∧
    get_similar_incidents search k =
      get_similar_incidents (fun _ => .ok ([] : List Nat)) k := by
  unfold get_similar_incidents
  rw [hfail]
  exact ⟨rfl, rfl⟩

/-- Witness for C10 at a concrete failing backend. -/
theorem claim_C10_witness :
    get_similar_incidents (fun _ => .error "backend down") 3 = [] ∧
    get_similar_incidents (fun _ => .error "backend down") 3 =
      get_similar_incidents (fun _ => .ok ([] : List Nat)) 3 :=
  claim_C10_search_failure_returns_empty (fun _ => .error "backend down") 3
    "backend down" rfl

/-- C1 counterexample: the claim asserts `fused_score[id] += score *
(weight / sum_of_active_weights)` so that weights `[("full_context", 2)]`
(sum 2) would yield the same fused scores as the sum-normalized weights
`[("full_context", 1)]`, all within `[0,1]`. The code multiplies by the
raw weight: doc 0 gets fused score 2 under the raw weights versus 1 under
the normalized weights, and 2 lies outside `[0,1]`. -/
theorem claim_C1_counterexample :
    fuseViews viewsNormEx [("full_context", 2)] [] = .ok [(0, 2), (1, 0)] ∧
    fuseViews viewsNormEx [("full_context", 1)] [] = .ok [(0, 1), (1, 0)] ∧
    ¬((2 : ℚ) ≤ 1) := by
  refine ⟨?_, ?_, by norm_num⟩ <;>
    simp [fuseViews, viewsNormEx, viewScores, maxDistOf, accumScores, addScore]

/-- C1 (amended): fusion accumulates `fused_score[id] += (1 -
distance/max_distance) * weight` with the raw caller weight — no division
by the sum of active weights. Consequently fused scores are homogeneous in
the weights (scaling every weight by `c` scales every fused score by `c`,
so weights summing to `S` yield exactly `S` times the fused scores of the
sum-normalized weights), each fused score lies in `[0, sum of weights]`
rather than `[0,1]`, and a view returning zero candidates is skipped
without crashing. -/
theorem claim_C1_fusion_unnormalized (views : ViewOracle)
    (ws : List (String × ℚ)) (ds : List (Nat × ℚ)) (c : ℚ)
    (hviews : ∀ v res, views v = .ok res → resultWF res)
    (hws : ∀ p ∈ ws, 0 ≤ p.2)
    (h : fuseViews views ws [] = .ok ds) :
    (∀ p ∈ ds, 0 ≤ p.2 ∧ p.2 ≤ sumWeights ws) ∧
    fuseViews views (scaleWeights c ws) [] = .ok (scaleScores c ds) ∧
    (∀ w', viewScores w' [] = .ok []) := by
  have hnd : keysNodup ds :=
    fuseViews_keysNodup views ws [] ds (by simp [keysNodup]) h
  refine ⟨?_, ?_, fun w' => rfl⟩
  · intro p hp
    have hg := getScore_eq_some_of_mem ds p hnd hp
    have hb := fuseViews_bound views hviews ws [] ds 0 hws le_rfl
      (by simp [keysNodup]) (fun k val hk => by simp [getScore] at hk)
      h p.1 p.2 hg
    simpa using hb
  · have := fuseViews_scale views c ws [] ds h
    simpa [scaleScores] using this

/-- Witness for C1 (amended) at the concrete one-view environment with
weight 2 and scaling factor 1/2. -/
theorem claim_C1_witness :
    (∀ p ∈ [((0 : Nat), (2 : ℚ)), (1, 0)],
      0 ≤ p.2 ∧ p.2 ≤ sumWeights [("full_context", 2)]) ∧
    fuseViews viewsNormEx (scaleWeights (1 / 2) [("full_context", 2)]) [] =
      .ok (scaleScores (1 / 2) [(0, 2), (1, 0)]) ∧
    (∀ w', viewScores w' [] = .ok []) :=
  claim_C1_fusion_unnormalized viewsNormEx [("full_context", 2)]
    [(0, 2), (1, 0)] (1 / 2)
    (by
      intro v res hres
      by_cases hv : v = "full_context"
      · simp [viewsNormEx, hv] at hres
        subst hres
        refine ⟨?_, by simp⟩
        intro p hp
        rcases List.mem_cons.mp hp with rfl | hp'
        · norm_num
        · rcases List.mem_cons.mp hp' with rfl | hp''
          · norm_num
          · cases hp''
      · simp [viewsNormEx, hv] at hres)
    (by
      intro p hp
      rcases List.mem_cons.mp hp with rfl | hp'
      · norm_num
      · cases hp')
    (by simp [fuseViews, viewsNormEx, viewScores, maxDistOf, accumScores,
        addScore])

/-- C2 counterexample: the weight vector `{geo: 0, full: 1}` has exactly
one positive weight, yet the zero-weight geo view seeds the score dict in
its own order; the full view's two rows tie, every fused score is 0, and
CPython's stable sort keeps dict-insertion order, so the fused ranking is
`[2, 1]` while querying the full view directly returns `[1, 2]`. -/
theorem claim_C2_counterexample :
    multi_context_query viewsTieEx
      [("geo_context", 0), ("full_context", 1)] 5 = .ok [2, 1] ∧
    query_crime_data viewsTieEx "full_context" 5 = .ok [1, 2] ∧
    ([2, 1] : List Nat) ≠ [1, 2] := by
  refine ⟨?_, ?_, by decide⟩
  · simp [multi_context_query, fuseViews, viewsTieEx, viewScores, maxDistOf,
      accumScores, addScore, sortDesc, insertDesc]
  · simp [query_crime_data, viewsTieEx]

/-- C2 (amended): for a weight vector consisting of exactly one entry,
with a positive weight, multi-context retrieval returns the same ordering
as querying that view's index directly — provided the view's ranked result
is well-formed (nonnegative distances sorted ascending, distinct ids, not
all-zero distances). Additional zero-weight entries can break the
equivalence on ties, as the counterexample shows. -/
theorem claim_C2_single_view_equivalence (views : ViewOracle) (v : String)
    (w : ℚ) (n : Nat) (hw : 0 < w)
    (hwf : ∀ res, views v = .ok res → rankedWF res) :
    multi_context_query views [(v, w)] n = query_crime_data views v n := by
  cases hv : views v with
  | error e => simp [multi_context_query, fuseViews, hv, query_crime_data]
  | ok res =>
    obtain ⟨⟨hnn, hnd⟩, hasc, h0⟩ := hwf res hv
    have hvs := viewScores_eq_ok w res h0
    have hkeys : ((res.map fun p =>
        (p.1, (1 - p.2 / maxDistOf res) * w)).map Prod.fst) =
        res.map Prod.fst := by
      rw [List.map_map]; rfl
    have hacc : accumScores []
        (res.map fun p => (p.1, (1 - p.2 / maxDistOf res) * w)) =
        res.map fun p => (p.1, (1 - p.2 / maxDistOf res) * w) := by
      have := accumScores_eq_append
        (res.map fun p => (p.1, (1 - p.2 / maxDistOf res) * w)) []
        (by rw [hkeys]; exact hnd) (by intro k _ hk; simp at hk)
      simpa using this
    have hsorted := mapped_scores_sorted w (le_of_lt hw) res hasc hnn h0
    have hsd := sortDesc_of_sorted _ hsorted
    have hfuse : fuseViews views [(v, w)] [] =
        .ok (res.map fun p => (p.1, (1 - p.2 / maxDistOf res) * w)) := by
      simp only [fuseViews, hv, hvs, hacc]
    simp only [multi_context_query, hfuse, hsd, query_crime_data, hv]
    rw [List.map_take, List.map_take, hkeys]

/-- Witness for C2 (amended) at the concrete single-entry weight vector of
weight 1. -/
theorem claim_C2_witness :
    multi_context_query viewsNormEx [("full_context", 1)] 5 =
      query_crime_data viewsNormEx "full_context" 5 :=
  claim_C2_single_view_equivalence viewsNormEx "full_context" 1 5
    (by norm_num)
    (by
      intro res hres
      simp [viewsNormEx] at hres
      subst hres
      refine ⟨⟨?_, by simp⟩, ?_, Or.inr ?_⟩
      · intro p hp
        rcases List.mem_cons.mp hp with rfl | hp'
        · norm_num
        · rcases List.mem_cons.mp hp' with rfl | hp''
          · norm_num
          · cases hp''
      · refine List.pairwise_cons.mpr ⟨?_, by simp⟩
        intro b hb
        rcases List.mem_cons.mp hb with rfl | hb'
        · norm_num
        · cases hb'
      · show maxDistOf [(0, 0), (1, 1)] ≠ 0
        norm_num [maxDistOf])

/-- C3 counterexample: with a healthy full-context view and a geo view
whose index raises, the query propagates the geo view's error instead of
returning a ranking built from the healthy view: the loop has no
`try`/`except`. -/
theorem claim_C3_counterexample :
    multi_context_query viewsOutageEx
      [("full_context", 1), ("geo_context", 1)] 5 =
      .error (.indexUnavailable "geo_context") := by
  simp [multi_context_query, fuseViews, viewsOutageEx, viewScores, maxDistOf,
    accumScores, addScore]

/-- C3 (amended): there is no graceful degradation — if any queried view's
embed or index step raises, the whole retrieval raises (some view's error,
the first failing one in weight order), even when other views are
healthy. -/
theorem claim_C3_view_error_aborts (views : ViewOracle)
    (ws : List (String × ℚ)) (v : String) (w : ℚ) (e : PyErr) (n : Nat)
    (hmem : (v, w) ∈ ws) (hfail : views v = .error e) :
    ∃ e', multi_context_query views ws n = .error e' := by
  have hsf : stepFails views v w := by
    unfold stepFails
    rw [hfail]
    trivial
  obtain ⟨e', he'⟩ := fuseViews_error_of_stepFails views v w hsf ws [] hmem
  exact ⟨e', by simp [multi_context_query, he']⟩

/-- Witness for C3 (amended) at the concrete partial-outage environment. -/
theorem claim_C3_witness :
    ∃ e', multi_context_query viewsOutageEx
      [("full_context", 1), ("geo_context", 1)] 5 = .error e' :=
  claim_C3_view_error_aborts viewsOutageEx
    [("full_context", 1), ("geo_context", 1)] "geo_context" 1
    (.indexUnavailable "geo_context") 5 (by simp)
    (by simp [viewsOutageEx])

/-- C4 counterexample: an all-zero weight vector does not return an empty
sequence — each view is still queried, every doc receives fused score 0,
and the top-`n_results` docs are returned. -/
theorem claim_C4_counterexample :
    multi_context_query viewsSingleEx [("full_context", 0)] 5 = .ok [0] ∧
    ([0] : List Nat) ≠ [] := by
  refine ⟨?_, by decide⟩
  simp [multi_context_query, fuseViews, viewsSingleEx, viewScores, maxDistOf,
    accumScores, addScore, sortDesc, insertDesc]

/-- C4 (amended): an empty weight vector returns the empty sequence
without error, for every environment; but an all-zero weight vector still
queries its views and can return a non-empty result (every doc at fused
score 0), so a positive weight is not required for non-empty output. -/
theorem claim_C4_empty_weights_empty_result :
    (∀ (views : ViewOracle) (n : Nat),
      multi_context_query views [] n = .ok []) ∧
    multi_context_query viewsSingleEx [("full_context", 0)] 5 = .ok [0] := by
  refine ⟨fun views n => by simp [multi_context_query, fuseViews, sortDesc], ?_⟩
  simp [multi_context_query, fuseViews, viewsSingleEx, viewScores, maxDistOf,
    accumScores, addScore, sortDesc, insertDesc]

/-- C5 counterexample: a single view returns ids 2 and 1 at the same
distance; both fused scores are 0 and each id has the same number of
contributing views (one), so the claimed tie-break (contributing views
descending, then record id ascending) predicts `[1, 2]` — but the code
sorts only by score, stable in dict-insertion order, and returns
`[2, 1]`. -/
theorem claim_C5_counterexample :
    multi_context_query viewsTieIdEx [("full_context", 1)] 5 = .ok [2, 1] ∧
    fuseViews viewsTieIdEx [("full_context", 1)] [] = .ok [(2, 0), (1, 0)] ∧
    (1 : Nat) < 2 ∧ ([2, 1] : List Nat) ≠ [1, 2] := by
  refine ⟨?_, ?_, by decide, by decide⟩ <;>
    simp [multi_context_query, fuseViews, viewsTieIdEx, viewScores, maxDistOf,
      accumScores, addScore, sortDesc, insertDesc]

/-- C5 (amended): results are sorted by fused score descending, but ties
are broken by insertion order into the score dict (the order ids first
appear across views in weight order), not by contributing-view count or by
record id; the ordering is still a deterministic function of the query's
per-view results. -/
theorem claim_C5_sorted_by_fused_score (views : ViewOracle)
    (ws : List (String × ℚ)) (n : Nat) (ds : List (Nat × ℚ))
    (out : List Nat) (hds : fuseViews views ws [] = .ok ds)
    (hout : multi_context_query views ws n = .ok out) :
    out.Pairwise (fun i j =>
      (getScore ds j).getD 0 ≤ (getScore ds i).getD 0) := by
  have hnd : keysNodup ds :=
    fuseViews_keysNodup views ws [] ds (by simp [keysNodup]) hds
  have hout' : ((sortDesc ds).take n).map Prod.fst = out := by
    simp only [multi_context_query, hds] at hout
    exact Except.ok.inj hout
  rw [← hout', List.pairwise_map]
  have hs : ((sortDesc ds).take n).Pairwise (fun a b => b.2 ≤ a.2) :=
    List.Pairwise.sublist (List.take_sublist n (sortDesc ds))
      (sortDesc_sorted ds)
  refine hs.imp_of_mem ?_
  intro a b ha hb hab
  have ha' : a ∈ ds :=
    (sortDesc_perm ds).mem_iff.mp (List.mem_of_mem_take ha)
  have hb' : b ∈ ds :=
    (sortDesc_perm ds).mem_iff.mp (List.mem_of_mem_take hb)
  rw [getScore_eq_some_of_mem ds a hnd ha',
    getScore_eq_some_of_mem ds b hnd hb']
  simpa using hab

/-- Witness for C5 (amended) at the concrete tied environment. -/
theorem claim_C5_witness :
    ([2, 1] : List Nat).Pairwise (fun i j =>
      (getScore [(2, 0), (1, 0)] j).getD 0 ≤
        (getScore [(2, 0), (1, 0)] i).getD 0) :=
  claim_C5_sorted_by_fused_score viewsTieIdEx [("full_context", 1)] 5
    [(2, 0), (1, 0)] [2, 1]
    (by simp [fuseViews, viewsTieIdEx, viewScores, maxDistOf, accumScores,
      addScore])
    (by simp [multi_context_query, fuseViews, viewsTieIdEx, viewScores,
      maxDistOf, accumScores, addScore, sortDesc, insertDesc])

/-- C9: the empty-result guard defaults `max_dist` to 1.0, but for every
queried view returning a non-empty result whose distances are all zero,
`distances[i] / max_dist` divides zero by zero and the whole retrieval
raises instead of returning results. -/
theorem claim_C9_all_zero_distances_raise (views : ViewOracle)
    (ws : List (String × ℚ)) (v : String) (w : ℚ) (res : QueryResult)
    (n : Nat) (hmem : (v, w) ∈ ws) (hv : views v = .ok res)
    (hne : res ≠ []) (hzero : ∀ p ∈ res, p.2 = 0) :
    viewScores w res = .error .zeroDivision ∧
    (∀ w', viewScores w' [] = .ok []) ∧
    ∃ e, multi_context_query views ws n = .error e := by
  have hmax := maxDistOf_zero_of_all_zero res hzero hne
  have hvs : viewScores w res = .error .zeroDivision := by
    cases res with
    | nil => cases hne rfl
    | cons q t => simp [viewScores, hmax]
  refine ⟨hvs, fun w' => rfl, ?_⟩
  have hsf : stepFails views v w := by
    unfold stepFails
    rw [hv]
    exact ⟨_, hvs⟩
  obtain ⟨e', he'⟩ := fuseViews_error_of_stepFails views v w hsf ws [] hmem
  exact ⟨e', by simp [multi_context_query, he']⟩

/-- Witness for C9 at a view whose two rows are both at distance zero. -/
theorem claim_C9_witness :
    viewScores 1 [(0, 0), (1, 0)] = .error .zeroDivision ∧
    (∀ w', viewScores w' [] = .ok []) ∧
    ∃ e, multi_context_query viewsZeroDistEx [("full_context", 1)] 5 =
      .error e :=
  claim_C9_all_zero_distances_raise viewsZeroDistEx [("full_context", 1)]
    "full_context" 1 [(0, 0), (1, 0)] 5 (by simp)
    (by simp [viewsZeroDistEx]) (by simp)
    (by
      intro p hp
      rcases List.mem_cons.mp hp with rfl | hp'
      · rfl
      · rcases List.mem_cons.mp hp' with rfl | hp''
        · rfl
        · cases hp'')

end CapsBe
